import Mathlib

/-!
Verification of the Minesweeper constraint-propagation inference engine
(`minesweeper.py`, classes `Sentence` and `MinesweeperAI`).

Cells are integer coordinate pairs.  A `Sentence` is the program's
Constraint: a finite set of cells together with the exact number of mines
among them.  The AI state carries the board dimensions, the sets
`moves_made`, `mines` and `safes`, and the knowledge base (a list of
sentences).  Every operation below is a direct functional translation of
the corresponding Python method; `random.choice` is modelled by an
explicit selection function passed in by the caller.
-/

/-- A board cell, `(row, col)` as in the Python tuples. -/
abbrev Cell : Type := ℤ × ℤ

/-- `Sentence(cells, count)`: exactly `count` of `cells` are mines.
Counts are integers, as in Python (they may be decremented). -/
structure Sentence where
  cells : Finset Cell
  count : ℤ
deriving DecidableEq

/-- `Sentence.known_mines`: if `len(self.cells) == self.count and
self.count > 0` return a copy of `cells`, else the empty set. -/
def Sentence.known_mines (s : Sentence) : Finset Cell :=
  if (s.cells.card : ℤ) = s.count ∧ 0 < s.count then s.cells else ∅

/-- `Sentence.known_safes`: if `self.count == 0` return a copy of
`cells`, else the empty set. -/
def Sentence.known_safes (s : Sentence) : Finset Cell :=
  if s.count = 0 then s.cells else ∅

/-- `Sentence.mark_mine`: if the cell is present, remove it and
decrement the count; otherwise leave the sentence unchanged. -/
def Sentence.mark_mine (c : Cell) (s : Sentence) : Sentence :=
  if c ∈ s.cells then ⟨s.cells.erase c, s.count - 1⟩ else s

/-- `Sentence.mark_safe`: if the cell is present, remove it (the count
is unchanged); otherwise leave the sentence unchanged. -/
def Sentence.mark_safe (c : Cell) (s : Sentence) : Sentence :=
  if c ∈ s.cells then ⟨s.cells.erase c, s.count⟩ else s

/-- The mutable state of `MinesweeperAI`. -/
structure AIState where
  height : ℕ
  width : ℕ
  moves_made : Finset Cell
  mines : Finset Cell
  safes : Finset Cell
  knowledge : List Sentence
deriving DecidableEq

/-- `MinesweeperAI.__init__(height, width)`. -/
def initialAI (h w : ℕ) : AIState :=
  { height := h, width := w, moves_made := ∅, mines := ∅, safes := ∅, knowledge := [] }

/-- `MinesweeperAI.mark_mine`: if the cell is not already a known mine,
add it to `mines` and apply `Sentence.mark_mine` to every stored
sentence. -/
def AIState.mark_mine (st : AIState) (c : Cell) : AIState :=
  if c ∈ st.mines then st
  else { st with mines := insert c st.mines,
                 knowledge := st.knowledge.map (Sentence.mark_mine c) }

/-- `MinesweeperAI.mark_safe`: if the cell is not already known safe,
add it to `safes` and apply `Sentence.mark_safe` to every stored
sentence. -/
def AIState.mark_safe (st : AIState) (c : Cell) : AIState :=
  if c ∈ st.safes then st
  else { st with safes := insert c st.safes,
                 knowledge := st.knowledge.map (Sentence.mark_safe c) }

/-- The neighbour scan of `add_knowledge` step 2: the in-bounds cells of
the 3×3 block around `cell`, excluding `cell` itself. -/
def neighborCells (st : AIState) (cell : Cell) : List Cell :=
  ([-1, 0, 1] : List ℤ).flatMap fun dr =>
    ([-1, 0, 1] : List ℤ).filterMap fun dc =>
      let nc : Cell := (cell.1 + dr, cell.2 + dc)
      if nc ≠ cell ∧ (0 ≤ nc.1 ∧ nc.1 < (st.height : ℤ)) ∧
          (0 ≤ nc.2 ∧ nc.2 < (st.width : ℤ)) then some nc else none

/-- Step 1 of `add_knowledge`: record the move and mark the cell safe. -/
def afterMark (st : AIState) (cell : Cell) : AIState :=
  AIState.mark_safe { st with moves_made := insert cell st.moves_made } cell

/-- Steps 1–2 of `add_knowledge`: record the move, mark the cell safe,
build the sentence over the unresolved in-bounds neighbours with the
count adjusted for already known mines, and append it when its cell set
is non-empty. -/
def newSentenceState (st : AIState) (cell : Cell) (count : ℤ) : AIState :=
  let st1 := afterMark st cell
  let ns := neighborCells st1 cell
  let adjusted : ℤ := count - ((ns.filter fun x => x ∈ st1.mines).length : ℤ)
  let newCells : Finset Cell :=
    (ns.filter fun x => x ∉ st1.mines ∧ x ∉ st1.safes).toFinset
  if 0 < newCells.card
    then { st1 with knowledge := st1.knowledge ++ [⟨newCells, adjusted⟩] }
    else st1

/-!  The Python propagation loop iterates over the sets `known_mines()`
and `known_safes()` with `for ... in set`, whose order the language
leaves unspecified.  Marking is order-independent (proved below), so the
iteration is modelled as a fold over the underlying multiset of the
finite set, which is well defined exactly because of that
commutativity. -/

theorem sentence_mark_mine_mem {c : Cell} {s : Sentence} (h : c ∈ s.cells) :
    Sentence.mark_mine c s = ⟨s.cells.erase c, s.count - 1⟩ := by
  unfold Sentence.mark_mine
  rw [if_pos h]

theorem sentence_mark_mine_not_mem {c : Cell} {s : Sentence} (h : c ∉ s.cells) :
    Sentence.mark_mine c s = s := by
  unfold Sentence.mark_mine
  rw [if_neg h]

theorem sentence_mark_safe_mem {c : Cell} {s : Sentence} (h : c ∈ s.cells) :
    Sentence.mark_safe c s = ⟨s.cells.erase c, s.count⟩ := by
  unfold Sentence.mark_safe
  rw [if_pos h]

theorem sentence_mark_safe_not_mem {c : Cell} {s : Sentence} (h : c ∉ s.cells) :
    Sentence.mark_safe c s = s := by
  unfold Sentence.mark_safe
  rw [if_neg h]

theorem sentence_mark_mine_comm (a b : Cell) (s : Sentence) :
    Sentence.mark_mine b (Sentence.mark_mine a s)
      = Sentence.mark_mine a (Sentence.mark_mine b s) := by
  by_cases hab : a = b
  · subst hab; rfl
  by_cases ha : a ∈ s.cells
  · by_cases hb : b ∈ s.cells
    · rw [sentence_mark_mine_mem ha, sentence_mark_mine_mem hb,
        sentence_mark_mine_mem
          (show b ∈ (⟨s.cells.erase a, s.count - 1⟩ : Sentence).cells from
            Finset.mem_erase.mpr ⟨fun h => hab h.symm, hb⟩),
        sentence_mark_mine_mem
          (show a ∈ (⟨s.cells.erase b, s.count - 1⟩ : Sentence).cells from
            Finset.mem_erase.mpr ⟨hab, ha⟩)]
      rw [Sentence.mk.injEq]
      exact ⟨Finset.erase_right_comm, rfl⟩
    · rw [sentence_mark_mine_mem ha, sentence_mark_mine_not_mem hb,
        sentence_mark_mine_not_mem
          (show b ∉ (⟨s.cells.erase a, s.count - 1⟩ : Sentence).cells from
            fun hmem => hb (Finset.mem_of_mem_erase hmem)),
        sentence_mark_mine_mem ha]
  · by_cases hb : b ∈ s.cells
    · rw [sentence_mark_mine_not_mem ha, sentence_mark_mine_mem hb]
      exact (sentence_mark_mine_not_mem
        (show a ∉ (⟨s.cells.erase b, s.count - 1⟩ : Sentence).cells from
          fun hmem => ha (Finset.mem_of_mem_erase hmem))).symm
    · rw [sentence_mark_mine_not_mem ha, sentence_mark_mine_not_mem hb]
      exact (sentence_mark_mine_not_mem ha).symm

theorem sentence_mark_safe_comm (a b : Cell) (s : Sentence) :
    Sentence.mark_safe b (Sentence.mark_safe a s)
      = Sentence.mark_safe a (Sentence.mark_safe b s) := by
  by_cases hab : a = b
  · subst hab; rfl
  by_cases ha : a ∈ s.cells
  · by_cases hb : b ∈ s.cells
    · rw [sentence_mark_safe_mem ha, sentence_mark_safe_mem hb,
        sentence_mark_safe_mem
          (show b ∈ (⟨s.cells.erase a, s.count⟩ : Sentence).cells from
            Finset.mem_erase.mpr ⟨fun h => hab h.symm, hb⟩),
        sentence_mark_safe_mem
          (show a ∈ (⟨s.cells.erase b, s.count⟩ : Sentence).cells from
            Finset.mem_erase.mpr ⟨hab, ha⟩)]
      rw [Sentence.mk.injEq]
      exact ⟨Finset.erase_right_comm, rfl⟩
    · rw [sentence_mark_safe_mem ha, sentence_mark_safe_not_mem hb,
        sentence_mark_safe_not_mem
          (show b ∉ (⟨s.cells.erase a, s.count⟩ : Sentence).cells from
            fun hmem => hb (Finset.mem_of_mem_erase hmem)),
        sentence_mark_safe_mem ha]
  · by_cases hb : b ∈ s.cells
    · rw [sentence_mark_safe_not_mem ha, sentence_mark_safe_mem hb]
      exact (sentence_mark_safe_not_mem
        (show a ∉ (⟨s.cells.erase b, s.count⟩ : Sentence).cells from
          fun hmem => ha (Finset.mem_of_mem_erase hmem))).symm
    · rw [sentence_mark_safe_not_mem ha, sentence_mark_safe_not_mem hb]
      exact (sentence_mark_safe_not_mem ha).symm

theorem state_mark_mine_mem {st : AIState} {c : Cell} (h : c ∈ st.mines) :
    st.mark_mine c = st := by
  unfold AIState.mark_mine
  rw [if_pos h]

theorem state_mark_mine_not_mem {st : AIState} {c : Cell} (h : c ∉ st.mines) :
    st.mark_mine c = { st with mines := insert c st.mines,
                               knowledge := st.knowledge.map (Sentence.mark_mine c) } := by
  unfold AIState.mark_mine
  rw [if_neg h]

theorem state_mark_safe_mem {st : AIState} {c : Cell} (h : c ∈ st.safes) :
    st.mark_safe c = st := by
  unfold AIState.mark_safe
  rw [if_pos h]

theorem state_mark_safe_not_mem {st : AIState} {c : Cell} (h : c ∉ st.safes) :
    st.mark_safe c = { st with safes := insert c st.safes,
                               knowledge := st.knowledge.map (Sentence.mark_safe c) } := by
  unfold AIState.mark_safe
  rw [if_neg h]

theorem state_mark_mine_comm (st : AIState) (a b : Cell) :
    (st.mark_mine a).mark_mine b = (st.mark_mine b).mark_mine a := by
  by_cases hab : a = b
  · subst hab; rfl
  by_cases ha : a ∈ st.mines
  · rw [state_mark_mine_mem ha]
    by_cases hb : b ∈ st.mines
    · rw [state_mark_mine_mem hb, state_mark_mine_mem ha]
    · have hmem : a ∈ (st.mark_mine b).mines := by
        rw [state_mark_mine_not_mem hb]
        exact Finset.mem_insert_of_mem ha
      rw [state_mark_mine_mem hmem]
  · by_cases hb : b ∈ st.mines
    · rw [state_mark_mine_mem hb]
      have hmem : b ∈ (st.mark_mine a).mines := by
        rw [state_mark_mine_not_mem ha]
        exact Finset.mem_insert_of_mem hb
      rw [state_mark_mine_mem hmem]
    · have hbne : b ∉ (st.mark_mine a).mines := by
        rw [state_mark_mine_not_mem ha]
        intro hmem
        rcases Finset.mem_insert.mp hmem with h1 | h1
        · exact hab h1.symm
        · exact hb h1
      have hane : a ∉ (st.mark_mine b).mines := by
        rw [state_mark_mine_not_mem hb]
        intro hmem
        rcases Finset.mem_insert.mp hmem with h1 | h1
        · exact hab h1
        · exact ha h1
      rw [state_mark_mine_not_mem hbne, state_mark_mine_not_mem hane,
        state_mark_mine_not_mem ha, state_mark_mine_not_mem hb]
      dsimp only
      rw [AIState.mk.injEq]
      refine ⟨rfl, rfl, rfl, Finset.Insert.comm b a st.mines, rfl, ?_⟩
      rw [List.map_map, List.map_map]
      have hcomp : Sentence.mark_mine b ∘ Sentence.mark_mine a
          = Sentence.mark_mine a ∘ Sentence.mark_mine b :=
        funext fun s => sentence_mark_mine_comm a b s
      rw [hcomp]

theorem state_mark_safe_comm (st : AIState) (a b : Cell) :
    (st.mark_safe a).mark_safe b = (st.mark_safe b).mark_safe a := by
  by_cases hab : a = b
  · subst hab; rfl
  by_cases ha : a ∈ st.safes
  · rw [state_mark_safe_mem ha]
    by_cases hb : b ∈ st.safes
    · rw [state_mark_safe_mem hb, state_mark_safe_mem ha]
    · have hmem : a ∈ (st.mark_safe b).safes := by
        rw [state_mark_safe_not_mem hb]
        exact Finset.mem_insert_of_mem ha
      rw [state_mark_safe_mem hmem]
  · by_cases hb : b ∈ st.safes
    · rw [state_mark_safe_mem hb]
      have hmem : b ∈ (st.mark_safe a).safes := by
        rw [state_mark_safe_not_mem ha]
        exact Finset.mem_insert_of_mem hb
      rw [state_mark_safe_mem hmem]
    · have hbne : b ∉ (st.mark_safe a).safes := by
        rw [state_mark_safe_not_mem ha]
        intro hmem
        rcases Finset.mem_insert.mp hmem with h1 | h1
        · exact hab h1.symm
        · exact hb h1
      have hane : a ∉ (st.mark_safe b).safes := by
        rw [state_mark_safe_not_mem hb]
        intro hmem
        rcases Finset.mem_insert.mp hmem with h1 | h1
        · exact hab h1
        · exact ha h1
      rw [state_mark_safe_not_mem hbne, state_mark_safe_not_mem hane,
        state_mark_safe_not_mem ha, state_mark_safe_not_mem hb]
      dsimp only
      rw [AIState.mk.injEq]
      refine ⟨rfl, rfl, rfl, rfl, Finset.Insert.comm b a st.safes, ?_⟩
      rw [List.map_map, List.map_map]
      have hcomp : Sentence.mark_safe b ∘ Sentence.mark_safe a
          = Sentence.mark_safe a ∘ Sentence.mark_safe b :=
        funext fun s => sentence_mark_safe_comm a b s
      rw [hcomp]

instance : RightCommutative AIState.mark_mine :=
  ⟨fun st a b => state_mark_mine_comm st a b⟩

instance : RightCommutative AIState.mark_safe :=
  ⟨fun st a b => state_mark_safe_comm st a b⟩

/-- One sentence of a propagation scan: compute `known_mines` and
`known_safes` of the snapshot sentence, mark every such cell (a fold
over the set, well defined by the commutativity above), and raise the
`changes_made` flag when either set is non-empty. -/
def scanStep (acc : AIState × Bool) (s : Sentence) : AIState × Bool :=
  let nm := s.known_mines
  let ns := s.known_safes
  let st1 := Multiset.foldl AIState.mark_mine acc.1 nm.val
  let st2 := Multiset.foldl AIState.mark_safe st1 ns.val
  (st2, acc.2 || decide (nm ≠ ∅) || decide (ns ≠ ∅))

/-- One full scan of the propagation loop: iterate over the snapshot of
the knowledge base taken at the start of the scan (the Python
`copy.deepcopy(self.knowledge)`) while the live state evolves; the
Boolean is the `changes_made` flag of this scan. -/
def runPass (st : AIState) : AIState × Bool :=
  st.knowledge.foldl scanStep (st, false)

/-- The `while changes_made` propagation loop, with explicit fuel: run a
scan and continue while the scan reported a change. -/
def propagate : ℕ → AIState → AIState
  | 0, st => st
  | n + 1, st =>
    match runPass st with
    | (st', true) => propagate n st'
    | (st', false) => st'

/-- Total number of cell occurrences across the stored sentences; the
propagation loop's termination measure. -/
def sumCells (st : AIState) : ℕ :=
  (st.knowledge.map fun s => s.cells.card).sum

/-- All index pairs `i < j` of a list, in the order of the Python nested
loops `for i in range(n): for j in range(i+1, n)`. -/
def ijPairs {α : Type} : List α → List (α × α)
  | [] => []
  | x :: xs => (xs.map fun y => (x, y)) ++ ijPairs xs

/-- The body of the subset-elimination loops: from a pair of stored
sentences derive `superset − subset` with the counts subtracted, and
keep it only when its cell set is non-empty and it is not structurally
equal to a sentence already stored in `kb`. -/
def inferFrom (kb : List Sentence) (p : Sentence × Sentence) : Option Sentence :=
  if p.1.cells ⊆ p.2.cells then
    let s : Sentence := ⟨p.2.cells \ p.1.cells, p.2.count - p.1.count⟩
    if 0 < s.cells.card ∧ s ∉ kb then some s else none
  else if p.2.cells ⊆ p.1.cells then
    let s : Sentence := ⟨p.1.cells \ p.2.cells, p.1.count - p.2.count⟩
    if 0 < s.cells.card ∧ s ∉ kb then some s else none
  else none

/-- The `new_inferences` list built by one subset-elimination pass. -/
def subsetInferences (kb : List Sentence) : List Sentence :=
  (ijPairs kb).filterMap (inferFrom kb)

/-- Step 4 of `add_knowledge`: append all retained inferences. -/
def eliminationStep (st : AIState) : AIState :=
  { st with knowledge := st.knowledge ++ subsetInferences st.knowledge }

/-- The state right after the propagation loop of `add_knowledge`
reaches its fixpoint (before subset elimination).  The fuel
`sumCells + 1` provably suffices on every state whose sentences are
disjoint from `mines` and `safes` (see `propagation_terminates`). -/
def afterPropagation (st : AIState) (cell : Cell) (count : ℤ) : AIState :=
  propagate (sumCells (newSentenceState st cell count) + 1) (newSentenceState st cell count)

/-- `MinesweeperAI.add_knowledge`: record the move, build the new
sentence, propagate to a fixpoint, then run subset elimination once. -/
def add_knowledge (st : AIState) (cell : Cell) (count : ℤ) : AIState :=
  eliminationStep (afterPropagation st cell count)

/-- `MinesweeperAI.make_random_move`'s candidate list: the board cells
outside `moves_made` and `mines`, in row-major order. -/
def possibleMoves (st : AIState) : List Cell :=
  (List.range st.height).flatMap fun (i : ℕ) =>
    (List.range st.width).filterMap fun (j : ℕ) =>
      if ((i : ℤ), (j : ℤ)) ∉ st.moves_made ∧ ((i : ℤ), (j : ℤ)) ∉ st.mines
        then some ((i : ℤ), (j : ℤ)) else none

/-- `MinesweeperAI.make_random_move`: return `none` when
`len(moves_made) + len(mines) >= height * width`; otherwise return
`random.choice(possible_moves)` when candidates exist and `none` when
the candidate list is empty.  `random.choice` is modelled by the
selection function `pick`. -/
def make_random_move (pick : List Cell → Cell) (st : AIState) : Option Cell :=
  if st.height * st.width ≤ st.moves_made.card + st.mines.card then none
  else if (possibleMoves st).isEmpty then none
  else some (pick (possibleMoves st))

/-- The driver-facing mutating operations of the knowledge base.
`make_safe_move` and `make_random_move` are read-only queries in the
source (they mutate nothing), so they do not appear as operations. -/
inductive Op : Type
  | observe (cell : Cell) (count : ℤ)
  | mark_mine (cell : Cell)
  | mark_safe (cell : Cell)

/-- The state transition of one operation. -/
def stepOp (st : AIState) : Op → AIState
  | .observe c n => add_knowledge st c n
  | .mark_mine c => st.mark_mine c
  | .mark_safe c => st.mark_safe c

/-- Run a sequence of operations from an arbitrary state. -/
def runFrom (st : AIState) (ops : List Op) : AIState :=
  ops.foldl stepOp st

/-- Run a sequence of operations from a fresh `MinesweeperAI`. -/
def runOps (h w : ℕ) (ops : List Op) : AIState :=
  runFrom (initialAI h w) ops

/-!  ## Basic lemmas about the single-sentence operations -/

/-- Cells after `Sentence.mark_mine`: the cell is erased whether or not
it was present. -/
theorem Sentence.mark_mine_cells (c : Cell) (s : Sentence) :
    (Sentence.mark_mine c s).cells = s.cells.erase c := by
  unfold Sentence.mark_mine
  split
  · rfl
  · next h => exact (Finset.erase_eq_of_not_mem h).symm

/-- Cells after `Sentence.mark_safe`: the cell is erased whether or not
it was present. -/
theorem Sentence.mark_safe_cells (c : Cell) (s : Sentence) :
    (Sentence.mark_safe c s).cells = s.cells.erase c := by
  unfold Sentence.mark_safe
  split
  · rfl
  · next h => exact (Finset.erase_eq_of_not_mem h).symm

/-!  ## Field lemmas for the state-level marking operations -/

theorem AIState.mark_mine_moves (st : AIState) (c : Cell) :
    (st.mark_mine c).moves_made = st.moves_made := by
  unfold AIState.mark_mine; split <;> rfl

theorem AIState.mark_mine_safes (st : AIState) (c : Cell) :
    (st.mark_mine c).safes = st.safes := by
  unfold AIState.mark_mine; split <;> rfl

theorem AIState.mark_safe_moves (st : AIState) (c : Cell) :
    (st.mark_safe c).moves_made = st.moves_made := by
  unfold AIState.mark_safe; split <;> rfl

theorem AIState.mark_safe_mines (st : AIState) (c : Cell) :
    (st.mark_safe c).mines = st.mines := by
  unfold AIState.mark_safe; split <;> rfl

theorem AIState.mark_mine_mines_subset (st : AIState) (c : Cell) :
    st.mines ⊆ (st.mark_mine c).mines := by
  unfold AIState.mark_mine
  split
  · exact Finset.Subset.refl _
  · exact Finset.subset_insert _ _

theorem AIState.mark_safe_safes_subset (st : AIState) (c : Cell) :
    st.safes ⊆ (st.mark_safe c).safes := by
  unfold AIState.mark_safe
  split
  · exact Finset.Subset.refl _
  · exact Finset.subset_insert _ _

/-!  ## A generic fold-invariant helper -/

/-- A property preserved by every step of a left fold is preserved by
the whole fold. -/
theorem foldl_invariant {α β : Type} (f : β → α → β) (P : β → Prop)
    (step : ∀ b a, P b → P (f b a)) :
    ∀ (l : List α) (b : β), P b → P (l.foldl f b) := by
  intro l
  induction l with
  | nil => exact fun b hb => hb
  | cons x xs ih => exact fun b hb => ih _ (step b x hb)

/-- A reflexive-transitive relation that every step of a left fold
enjoys relates the start of the fold to its result. -/
theorem foldl_rel {α β : Type} (f : β → α → β) (R : β → β → Prop)
    (hrefl : ∀ b, R b b) (htrans : ∀ a b c, R a b → R b c → R a c)
    (step : ∀ b a, R b (f b a)) :
    ∀ (l : List α) (b : β), R b (l.foldl f b) := by
  intro l
  induction l with
  | nil => exact fun b => hrefl b
  | cons x xs ih => exact fun b => htrans _ _ _ (step b x) (ih (f b x))

/-- A property preserved by every step of a commutative fold over a
multiset is preserved by the whole fold. -/
theorem multiset_foldl_invariant {β α : Type} (f : β → α → β) [RightCommutative f]
    (P : β → Prop) (step : ∀ b a, P b → P (f b a)) (m : Multiset α) :
    ∀ b, P b → P (Multiset.foldl f b m) := by
  refine Multiset.induction_on m ?_ ?_
  · intro b hb
    rwa [Multiset.foldl_zero]
  · intro a s ih b hb
    rw [Multiset.foldl_cons]
    exact ih (f b a) (step b a hb)

/-- A reflexive-transitive relation that every step of a commutative
fold enjoys relates the start of the fold to its result. -/
theorem multiset_foldl_rel {β α : Type} (f : β → α → β) [RightCommutative f]
    (R : β → β → Prop) (hrefl : ∀ b, R b b)
    (htrans : ∀ a b c, R a b → R b c → R a c)
    (hstep : ∀ b a, R b (f b a)) (m : Multiset α) :
    ∀ b, R b (Multiset.foldl f b m) := by
  refine Multiset.induction_on m ?_ ?_
  · intro b
    rw [Multiset.foldl_zero]
    exact hrefl b
  · intro a s ih b
    rw [Multiset.foldl_cons]
    exact htrans _ _ _ (hstep b a) (ih (f b a))

/-- A quantity untouched by every step of a commutative fold is
untouched by the whole fold. -/
theorem multiset_foldl_measure_eq {β α γ : Type} (f : β → α → β) [RightCommutative f]
    (m : β → γ) (hf : ∀ b a, m (f b a) = m b) (s : Multiset α) :
    ∀ b, m (Multiset.foldl f b s) = m b := by
  refine Multiset.induction_on s ?_ ?_
  · intro b
    rw [Multiset.foldl_zero]
  · intro a t ih b
    rw [Multiset.foldl_cons, ih (f b a), hf]

/-!  ## Monotonicity of the tracking sets -/

/-- `st` grows into `t`: no cell is removed from `mines`, `safes` or
`moves_made`. -/
def Grows (st t : AIState) : Prop :=
  st.mines ⊆ t.mines ∧ st.safes ⊆ t.safes ∧ st.moves_made ⊆ t.moves_made

theorem Grows.rfl (st : AIState) : Grows st st :=
  ⟨Finset.Subset.refl _, Finset.Subset.refl _, Finset.Subset.refl _⟩

theorem Grows.trans {a b c : AIState} (h1 : Grows a b) (h2 : Grows b c) : Grows a c :=
  ⟨h1.1.trans h2.1, h1.2.1.trans h2.2.1, h1.2.2.trans h2.2.2⟩

theorem grows_mark_mine (st : AIState) (c : Cell) : Grows st (st.mark_mine c) := by
  refine ⟨st.mark_mine_mines_subset c, ?_, ?_⟩
  · rw [st.mark_mine_safes c]
  · rw [st.mark_mine_moves c]

theorem grows_mark_safe (st : AIState) (c : Cell) : Grows st (st.mark_safe c) := by
  refine ⟨?_, st.mark_safe_safes_subset c, ?_⟩
  · rw [st.mark_safe_mines c]
  · rw [st.mark_safe_moves c]

theorem grows_scanStep (acc : AIState × Bool) (s : Sentence) :
    Grows acc.1 (scanStep acc s).1 := by
  unfold scanStep
  exact Grows.trans
    (multiset_foldl_rel AIState.mark_mine Grows Grows.rfl (fun _ _ _ => Grows.trans)
      grows_mark_mine _ acc.1)
    (multiset_foldl_rel AIState.mark_safe Grows Grows.rfl (fun _ _ _ => Grows.trans)
      grows_mark_safe _ _)

theorem grows_runPass (st : AIState) : Grows st (runPass st).1 := by
  unfold runPass
  have h := foldl_rel scanStep (fun x y : AIState × Bool => Grows x.1 y.1)
    (fun b => Grows.rfl b.1) (fun _ _ _ => Grows.trans)
    (fun b a => grows_scanStep b a) st.knowledge (st, false)
  exact h

theorem grows_propagate : ∀ (n : ℕ) (st : AIState), Grows st (propagate n st) := by
  intro n
  induction n with
  | zero => exact fun st => Grows.rfl st
  | succ m ih =>
    intro st
    unfold propagate
    have h := grows_runPass st
    cases hp : runPass st with
    | mk st' b =>
      rw [hp] at h
      cases b with
      | true => exact Grows.trans h (ih st')
      | false => exact h

theorem grows_afterMark (st : AIState) (c : Cell) : Grows st (afterMark st c) := by
  unfold afterMark
  have h1 : Grows st { st with moves_made := insert c st.moves_made } :=
    ⟨Finset.Subset.refl _, Finset.Subset.refl _, Finset.subset_insert _ _⟩
  exact Grows.trans h1 (grows_mark_safe _ c)

theorem grows_newSentenceState (st : AIState) (c : Cell) (n : ℤ) :
    Grows st (newSentenceState st c n) := by
  unfold newSentenceState
  dsimp only
  split
  · exact Grows.trans (grows_afterMark st c)
      ⟨Finset.Subset.refl _, Finset.Subset.refl _, Finset.Subset.refl _⟩
  · exact grows_afterMark st c

theorem grows_eliminationStep (st : AIState) : Grows st (eliminationStep st) :=
  ⟨Finset.Subset.refl _, Finset.Subset.refl _, Finset.Subset.refl _⟩

theorem grows_add_knowledge (st : AIState) (c : Cell) (n : ℤ) :
    Grows st (add_knowledge st c n) := by
  unfold add_knowledge afterPropagation
  exact Grows.trans (grows_newSentenceState st c n)
    (Grows.trans (grows_propagate _ _) (grows_eliminationStep _))

theorem grows_stepOp (st : AIState) (op : Op) : Grows st (stepOp st op) := by
  cases op with
  | observe c n => exact grows_add_knowledge st c n
  | mark_mine c => exact grows_mark_mine st c
  | mark_safe c => exact grows_mark_safe st c

theorem grows_runFrom (st : AIState) (ops : List Op) : Grows st (runFrom st ops) :=
  foldl_rel stepOp Grows Grows.rfl (fun _ _ _ => Grows.trans) grows_stepOp ops st

/-!  ## The knowledge-cells disjointness invariant

Every stored sentence's cell set is disjoint from `mines` and from
`safes`.  This holds on every state reachable through the public
operations: a cell entering `mines`/`safes` is removed from every stored
sentence at that moment, and every sentence appended later excludes the
cells of those sets at its creation. -/

/-- Every stored sentence's cells avoid both `mines` and `safes`. -/
def DisjointKnowledge (st : AIState) : Prop :=
  ∀ s ∈ st.knowledge, s.cells ∩ st.mines = ∅ ∧ s.cells ∩ st.safes = ∅

theorem inter_empty_of_subset {s t u : Finset Cell} (hsub : s ⊆ t)
    (ht : t ∩ u = ∅) : s ∩ u = ∅ :=
  Finset.subset_empty.mp (ht ▸ Finset.inter_subset_inter hsub (Finset.Subset.refl u))

theorem inter_insert_empty {s t : Finset Cell} {c : Cell}
    (h : s ∩ t = ∅) (hc : c ∉ s) : s ∩ insert c t = ∅ := by
  rw [Finset.eq_empty_iff_forall_not_mem]
  intro x hx
  rw [Finset.mem_inter, Finset.mem_insert] at hx
  rcases hx.2 with rfl | hm
  · exact hc hx.1
  · exact Finset.eq_empty_iff_forall_not_mem.mp h x (Finset.mem_inter.mpr ⟨hx.1, hm⟩)

theorem disjoint_mark_mine (c : Cell) {st : AIState}
    (h : DisjointKnowledge st) : DisjointKnowledge (st.mark_mine c) := by
  unfold AIState.mark_mine
  split
  · exact h
  · intro s hs
    simp only [List.mem_map] at hs
    obtain ⟨u, hu, rfl⟩ := hs
    have hd := h u hu
    rw [Sentence.mark_mine_cells]
    constructor
    · exact inter_insert_empty (inter_empty_of_subset (Finset.erase_subset c u.cells) hd.1)
        (Finset.not_mem_erase c u.cells)
    · exact inter_empty_of_subset (Finset.erase_subset c u.cells) hd.2

theorem disjoint_mark_safe (c : Cell) {st : AIState}
    (h : DisjointKnowledge st) : DisjointKnowledge (st.mark_safe c) := by
  unfold AIState.mark_safe
  split
  · exact h
  · intro s hs
    simp only [List.mem_map] at hs
    obtain ⟨u, hu, rfl⟩ := hs
    have hd := h u hu
    rw [Sentence.mark_safe_cells]
    constructor
    · exact inter_empty_of_subset (Finset.erase_subset c u.cells) hd.1
    · exact inter_insert_empty (inter_empty_of_subset (Finset.erase_subset c u.cells) hd.2)
        (Finset.not_mem_erase c u.cells)

theorem disjoint_scanStep (acc : AIState × Bool) (s : Sentence)
    (h : DisjointKnowledge acc.1) : DisjointKnowledge (scanStep acc s).1 := by
  unfold scanStep
  exact multiset_foldl_invariant AIState.mark_safe DisjointKnowledge
    (fun b a hb => disjoint_mark_safe a hb) _ _
    (multiset_foldl_invariant AIState.mark_mine DisjointKnowledge
      (fun b a hb => disjoint_mark_mine a hb) _ _ h)

theorem disjoint_runPass (st : AIState) (h : DisjointKnowledge st) :
    DisjointKnowledge (runPass st).1 := by
  unfold runPass
  exact foldl_invariant scanStep (fun x : AIState × Bool => DisjointKnowledge x.1)
    (fun b a hb => disjoint_scanStep b a hb) st.knowledge (st, false) h

theorem disjoint_propagate :
    ∀ (n : ℕ) (st : AIState), DisjointKnowledge st → DisjointKnowledge (propagate n st) := by
  intro n
  induction n with
  | zero => exact fun st h => h
  | succ m ih =>
    intro st h
    unfold propagate
    have hr := disjoint_runPass st h
    cases hp : runPass st with
    | mk st' b =>
      rw [hp] at hr
      cases b with
      | true => exact ih st' hr
      | false => exact hr

theorem disjoint_newSentenceState (st : AIState) (c : Cell) (n : ℤ)
    (h : DisjointKnowledge st) : DisjointKnowledge (newSentenceState st c n) := by
  have h1 : DisjointKnowledge (afterMark st c) := by
    unfold afterMark
    exact disjoint_mark_safe c (fun s hs => h s hs)
  unfold newSentenceState
  dsimp only
  split
  · intro s hs
    rcases List.mem_append.mp hs with hl | hr
    · exact h1 s hl
    · rw [List.mem_singleton] at hr
      subst hr
      constructor
      · rw [Finset.eq_empty_iff_forall_not_mem]
        intro x hx
        rw [Finset.mem_inter, List.mem_toFinset, List.mem_filter] at hx
        have := of_decide_eq_true hx.1.2
        exact this.1 hx.2
      · rw [Finset.eq_empty_iff_forall_not_mem]
        intro x hx
        rw [Finset.mem_inter, List.mem_toFinset, List.mem_filter] at hx
        have := of_decide_eq_true hx.1.2
        exact this.2 hx.2
  · exact h1

theorem ijPairs_mem {α : Type} :
    ∀ (l : List α) (p : α × α), p ∈ ijPairs l → p.1 ∈ l ∧ p.2 ∈ l := by
  intro l
  induction l with
  | nil => intro p hp; cases hp
  | cons x xs ih =>
    intro p hp
    rw [ijPairs] at hp
    rcases List.mem_append.mp hp with h1 | h2
    · obtain ⟨y, hy, rfl⟩ := List.mem_map.mp h1
      exact ⟨List.mem_cons_self x xs, List.mem_cons_of_mem x hy⟩
    · have hm := ih p h2
      exact ⟨List.mem_cons_of_mem x hm.1, List.mem_cons_of_mem x hm.2⟩

/-- What one subset-elimination pass appends: every retained inference
is the difference of a stored superset sentence, is non-empty, and is
not structurally equal to any stored sentence. -/
theorem subsetInferences_spec {kb : List Sentence} {s : Sentence}
    (h : s ∈ subsetInferences kb) :
    (∃ u ∈ kb, s.cells ⊆ u.cells) ∧ 0 < s.cells.card ∧ s ∉ kb := by
  unfold subsetInferences at h
  obtain ⟨p, hp, hf⟩ := List.mem_filterMap.mp h
  have hpm := ijPairs_mem kb p hp
  unfold inferFrom at hf
  dsimp only at hf
  split at hf
  · split at hf
    · next hg =>
      obtain rfl := Option.some_injective _ hf
      exact ⟨⟨p.2, hpm.2, Finset.sdiff_subset⟩, hg.1, hg.2⟩
    · cases hf
  · split at hf
    · split at hf
      · next hg =>
        obtain rfl := Option.some_injective _ hf
        exact ⟨⟨p.1, hpm.1, Finset.sdiff_subset⟩, hg.1, hg.2⟩
      · cases hf
    · cases hf

theorem disjoint_eliminationStep (st : AIState)
    (h : DisjointKnowledge st) : DisjointKnowledge (eliminationStep st) := by
  intro s hs
  rcases List.mem_append.mp hs with hl | hr
  · exact h s hl
  · obtain ⟨⟨u, hu, hsub⟩, -, -⟩ := subsetInferences_spec hr
    have hd := h u hu
    exact ⟨inter_empty_of_subset hsub hd.1, inter_empty_of_subset hsub hd.2⟩

theorem disjoint_add_knowledge (st : AIState) (c : Cell) (n : ℤ)
    (h : DisjointKnowledge st) : DisjointKnowledge (add_knowledge st c n) := by
  unfold add_knowledge afterPropagation
  exact disjoint_eliminationStep _
    (disjoint_propagate _ _ (disjoint_newSentenceState st c n h))

theorem disjoint_runOps (h w : ℕ) (ops : List Op) :
    DisjointKnowledge (runOps h w ops) := by
  unfold runOps runFrom
  refine foldl_invariant stepOp DisjointKnowledge ?_ ops (initialAI h w) ?_
  · intro st op hst
    cases op with
    | observe c n => exact disjoint_add_knowledge st c n hst
    | mark_mine c => exact disjoint_mark_mine c hst
    | mark_safe c => exact disjoint_mark_safe c hst
  · intro s hs
    cases hs

/-!  ## Termination of the propagation loop

Each scan that raises the `changes_made` flag strictly shrinks the total
number of cell occurrences across the stored sentences, provided every
stored sentence is disjoint from `mines` and `safes` (which holds on all
reachable states).  Hence at most `sumCells + 1` scans reach a scan that
reports no change, and the `while` loop exits. -/

theorem sum_map_cells_le (c : Cell) (f : Sentence → Sentence)
    (hf : ∀ t, (f t).cells = t.cells.erase c) (l : List Sentence) :
    ((l.map f).map fun t => t.cells.card).sum ≤ (l.map fun t => t.cells.card).sum := by
  rw [List.map_map]
  apply List.sum_le_sum
  intro t ht
  have : ((fun t => t.cells.card) ∘ f) t = (f t).cells.card := rfl
  rw [this, hf]
  exact Finset.card_erase_le

theorem sum_map_cells_lt (c : Cell) (f : Sentence → Sentence)
    (hf : ∀ t, (f t).cells = t.cells.erase c) :
    ∀ (l : List Sentence) (s : Sentence), s ∈ l → c ∈ s.cells →
      ((l.map f).map fun t => t.cells.card).sum < (l.map fun t => t.cells.card).sum := by
  intro l
  induction l with
  | nil => intro s hs _; cases hs
  | cons a t ih =>
    intro s hs hcs
    rw [List.map_cons, List.map_cons, List.map_cons, List.sum_cons, List.sum_cons]
    rcases List.mem_cons.mp hs with rfl | hmem
    · have h1 : (f s).cells.card < s.cells.card := by
        rw [hf]
        exact Finset.card_erase_lt_of_mem hcs
      exact Nat.add_lt_add_of_lt_of_le h1 (sum_map_cells_le c f hf t)
    · have h1 : (f a).cells.card ≤ a.cells.card := by
        rw [hf]
        exact Finset.card_erase_le
      exact Nat.add_lt_add_of_le_of_lt h1 (ih s hmem hcs)

theorem sumCells_mark_mine_le (st : AIState) (c : Cell) :
    sumCells (st.mark_mine c) ≤ sumCells st := by
  unfold AIState.mark_mine
  split
  · exact le_refl _
  · unfold sumCells
    exact sum_map_cells_le c _ (fun t => Sentence.mark_mine_cells c t) st.knowledge

theorem sumCells_mark_safe_le (st : AIState) (c : Cell) :
    sumCells (st.mark_safe c) ≤ sumCells st := by
  unfold AIState.mark_safe
  split
  · exact le_refl _
  · unfold sumCells
    exact sum_map_cells_le c _ (fun t => Sentence.mark_safe_cells c t) st.knowledge

theorem sumCells_mark_mine_lt (st : AIState) (c : Cell) (hc : c ∉ st.mines)
    {s : Sentence} (hs : s ∈ st.knowledge) (hcs : c ∈ s.cells) :
    sumCells (st.mark_mine c) < sumCells st := by
  unfold AIState.mark_mine
  rw [if_neg hc]
  unfold sumCells
  exact sum_map_cells_lt c _ (fun t => Sentence.mark_mine_cells c t) st.knowledge s hs hcs

theorem sumCells_mark_safe_lt (st : AIState) (c : Cell) (hc : c ∉ st.safes)
    {s : Sentence} (hs : s ∈ st.knowledge) (hcs : c ∈ s.cells) :
    sumCells (st.mark_safe c) < sumCells st := by
  unfold AIState.mark_safe
  rw [if_neg hc]
  unfold sumCells
  exact sum_map_cells_lt c _ (fun t => Sentence.mark_safe_cells c t) st.knowledge s hs hcs

theorem multiset_foldl_sumCells_le {α : Type} (f : AIState → α → AIState)
    [RightCommutative f] (hf : ∀ st a, sumCells (f st a) ≤ sumCells st)
    (m : Multiset α) (st : AIState) :
    sumCells (Multiset.foldl f st m) ≤ sumCells st :=
  multiset_foldl_rel f (fun x y => sumCells y ≤ sumCells x) (fun _ => le_refl _)
    (fun _ _ _ hab hbc => le_trans hbc hab) hf m st

theorem sumCells_scanStep_le (acc : AIState × Bool) (s : Sentence) :
    sumCells (scanStep acc s).1 ≤ sumCells acc.1 := by
  unfold scanStep
  exact le_trans
    (multiset_foldl_sumCells_le AIState.mark_safe sumCells_mark_safe_le _ _)
    (multiset_foldl_sumCells_le AIState.mark_mine sumCells_mark_mine_le _ _)

theorem sumCells_foldl_scanStep_le (l : List Sentence) (acc : AIState × Bool) :
    sumCells (l.foldl scanStep acc).1 ≤ sumCells acc.1 :=
  foldl_rel scanStep (fun x y : AIState × Bool => sumCells y.1 ≤ sumCells x.1)
    (fun _ => le_refl _) (fun _ _ _ hab hbc => le_trans hbc hab)
    sumCells_scanStep_le l acc

/-- A sentence yielding no known mines and no known safes leaves the
state and the flag untouched. -/
theorem scanStep_no_change {st : AIState} {b : Bool} {s : Sentence}
    (h1 : s.known_mines = ∅) (h2 : s.known_safes = ∅) :
    scanStep (st, b) s = (st, b) := by
  unfold scanStep
  rw [h1, h2]
  simp

/-- A non-empty `known_mines` forces the guard of `known_mines` to hold,
in which case the returned set is the whole cell set. -/
theorem known_mines_of_ne_empty {s : Sentence} (h : s.known_mines ≠ ∅) :
    s.known_mines = s.cells ∧ (s.cells.card : ℤ) = s.count ∧ 0 < s.count := by
  by_cases hc : (s.cells.card : ℤ) = s.count ∧ 0 < s.count
  · exact ⟨by unfold Sentence.known_mines; rw [if_pos hc], hc⟩
  · exfalso
    apply h
    unfold Sentence.known_mines
    rw [if_neg hc]

/-- A non-empty `known_safes` forces the count to be zero, in which case
the returned set is the whole cell set. -/
theorem known_safes_of_ne_empty {s : Sentence} (h : s.known_safes ≠ ∅) :
    s.known_safes = s.cells ∧ s.count = 0 := by
  by_cases hc : s.count = 0
  · exact ⟨by unfold Sentence.known_safes; rw [if_pos hc], hc⟩
  · exfalso
    apply h
    unfold Sentence.known_safes
    rw [if_neg hc]

/-- A scan step on a stored sentence that yields known mines or known
safes strictly shrinks the measure, on a state whose sentences avoid
`mines` and `safes`. -/
theorem sumCells_scanStep_lt {st : AIState} {b : Bool} {s : Sentence}
    (hdk : DisjointKnowledge st) (hs : s ∈ st.knowledge)
    (hne : s.known_mines ≠ ∅ ∨ s.known_safes ≠ ∅) :
    sumCells (scanStep (st, b) s).1 < sumCells st := by
  unfold scanStep
  dsimp only
  rcases hne with hm | hsafe
  · obtain ⟨hcells, -⟩ := known_mines_of_ne_empty hm
    obtain ⟨c, hcm⟩ := Finset.nonempty_iff_ne_empty.mpr hm
    have hcv : c ∈ s.known_mines.val := Finset.mem_val.mpr hcm
    rw [hcells] at hcm
    have hcnotmine : c ∉ st.mines := by
      intro h1
      exact Finset.eq_empty_iff_forall_not_mem.mp (hdk s hs).1 c
        (Finset.mem_inter.mpr ⟨hcm, h1⟩)
    apply lt_of_le_of_lt
      (multiset_foldl_sumCells_le AIState.mark_safe sumCells_mark_safe_le _ _)
    rw [show s.known_mines.val = c ::ₘ s.known_mines.val.erase c from
      (Multiset.cons_erase hcv).symm, Multiset.foldl_cons]
    exact lt_of_le_of_lt
      (multiset_foldl_sumCells_le AIState.mark_mine sumCells_mark_mine_le _ _)
      (sumCells_mark_mine_lt st c hcnotmine hs hcm)
  · obtain ⟨hcells, hcount⟩ := known_safes_of_ne_empty hsafe
    have hnm : s.known_mines = ∅ := by
      unfold Sentence.known_mines
      rw [hcount]
      simp
    obtain ⟨c, hcm⟩ := Finset.nonempty_iff_ne_empty.mpr hsafe
    have hcv : c ∈ s.known_safes.val := Finset.mem_val.mpr hcm
    rw [hcells] at hcm
    have hcnotsafe : c ∉ st.safes := by
      intro h1
      exact Finset.eq_empty_iff_forall_not_mem.mp (hdk s hs).2 c
        (Finset.mem_inter.mpr ⟨hcm, h1⟩)
    rw [hnm, show ((∅ : Finset Cell)).val = 0 from rfl, Multiset.foldl_zero,
      show s.known_safes.val = c ::ₘ s.known_safes.val.erase c from
        (Multiset.cons_erase hcv).symm, Multiset.foldl_cons]
    exact lt_of_le_of_lt
      (multiset_foldl_sumCells_le AIState.mark_safe sumCells_mark_safe_le _ _)
      (sumCells_mark_safe_lt st c hcnotsafe hs hcm)

theorem scanStep_snd (acc : AIState × Bool) (s : Sentence) :
    (scanStep acc s).2
      = (acc.2 || decide (s.known_mines ≠ ∅) || decide (s.known_safes ≠ ∅)) := rfl

/-- The `changes_made` flag never drops back to `False` within a scan. -/
theorem foldl_scanStep_flag_mono :
    ∀ (l : List Sentence) (acc : AIState × Bool), acc.2 = true →
      (l.foldl scanStep acc).2 = true := by
  intro l
  induction l with
  | nil => exact fun acc h => h
  | cons s t ih =>
    intro acc h
    rw [List.foldl_cons]
    apply ih
    rw [scanStep_snd, h, Bool.true_or, Bool.true_or]

/-- A scan that reports no change leaves the state untouched. -/
theorem foldl_scanStep_flag_false :
    ∀ (l : List Sentence) (st : AIState) (b : Bool),
      (l.foldl scanStep (st, b)).2 = false →
      (l.foldl scanStep (st, b)).1 = st ∧ b = false := by
  intro l
  induction l with
  | nil => exact fun st b h => ⟨rfl, h⟩
  | cons s t ih =>
    intro st b h
    rw [List.foldl_cons] at h ⊢
    have hb2 : (scanStep (st, b) s).2 = false := by
      cases hb : (scanStep (st, b) s).2 with
      | false => rfl
      | true =>
        have hmono := foldl_scanStep_flag_mono t (scanStep (st, b) s) hb
        rw [h] at hmono
        exact hmono.symm
    rw [scanStep_snd] at hb2
    simp only [Bool.or_eq_false_iff] at hb2
    obtain ⟨⟨hb, h1⟩, h2⟩ := hb2
    have hnm : s.known_mines = ∅ := not_not.mp (of_decide_eq_false h1)
    have hns : s.known_safes = ∅ := not_not.mp (of_decide_eq_false h2)
    rw [scanStep_no_change hnm hns] at h ⊢
    exact ⟨(ih st b h).1, hb⟩

/-- A scan that reports a change strictly shrinks the measure, on a
state whose sentences avoid `mines` and `safes`. -/
theorem foldl_scanStep_decrease :
    ∀ (l : List Sentence) (st : AIState), DisjointKnowledge st →
      (∀ s ∈ l, s ∈ st.knowledge) →
      (l.foldl scanStep (st, false)).2 = true →
      sumCells (l.foldl scanStep (st, false)).1 < sumCells st := by
  intro l
  induction l with
  | nil => intro st _ _ h; exact Bool.noConfusion h
  | cons s t ih =>
    intro st hdk hmem hflag
    rw [List.foldl_cons] at hflag ⊢
    by_cases hno : s.known_mines = ∅ ∧ s.known_safes = ∅
    · rw [scanStep_no_change hno.1 hno.2] at hflag ⊢
      exact ih st hdk (fun x hx => hmem x (List.mem_cons_of_mem s hx)) hflag
    · have hs : s ∈ st.knowledge := hmem s (List.mem_cons_self s t)
      have hne : s.known_mines ≠ ∅ ∨ s.known_safes ≠ ∅ := by
        by_cases h1 : s.known_mines = ∅
        · exact Or.inr fun h2 => hno ⟨h1, h2⟩
        · exact Or.inl h1
      exact lt_of_le_of_lt (sumCells_foldl_scanStep_le t _)
        (sumCells_scanStep_lt hdk hs hne)

theorem sumCells_runPass_lt {st : AIState} (hdk : DisjointKnowledge st)
    (h : (runPass st).2 = true) : sumCells (runPass st).1 < sumCells st :=
  foldl_scanStep_decrease st.knowledge st hdk (fun _ hs => hs) h

/-- With fuel exceeding the measure, the propagation loop reaches a true
fixpoint: one more scan on its result reports no change. -/
theorem propagate_fixpoint :
    ∀ (N : ℕ) (st : AIState), DisjointKnowledge st → sumCells st < N →
      (runPass (propagate N st)).2 = false := by
  intro N
  induction N with
  | zero => intro st _ h; exact absurd h (Nat.not_lt_zero _)
  | succ m ih =>
    intro st hdk hlt
    unfold propagate
    rcases hp : runPass st with ⟨st', bflag⟩
    cases bflag with
    | true =>
      show (runPass (propagate m st')).2 = false
      have hdk' : DisjointKnowledge st' := by
        have hd := disjoint_runPass st hdk
        rw [hp] at hd
        exact hd
      have hdec : sumCells st' < sumCells st := by
        have hd := sumCells_runPass_lt hdk (by rw [hp])
        rw [hp] at hd
        exact hd
      exact ih st' hdk' (lt_of_lt_of_le hdec (Nat.lt_succ_iff.mp hlt))
    | false =>
      show (runPass st').2 = false
      have hff := foldl_scanStep_flag_false st.knowledge st false
        (by rw [show st.knowledge.foldl scanStep (st, false) = runPass st from rfl, hp])
      have hst : st' = st := by
        rw [show st.knowledge.foldl scanStep (st, false) = runPass st from rfl, hp] at hff
        exact hff.1
      rw [hst, hp]

/-- Every state whose sentences avoid `mines` and `safes` reaches the
propagation fixpoint within `sumCells + 1` scans. -/
theorem propagation_terminates (st : AIState) (h : DisjointKnowledge st) :
    (runPass (propagate (sumCells st + 1) st)).2 = false :=
  propagate_fixpoint (sumCells st + 1) st h (Nat.lt_succ_self _)

/-!  ## Frame lemmas: what the propagation loop does not change -/

theorem foldl_measure_eq {α β : Type} (f : AIState → α → AIState) (m : AIState → β)
    (hf : ∀ st a, m (f st a) = m st) :
    ∀ (l : List α) (st : AIState), m (l.foldl f st) = m st := by
  intro l
  induction l with
  | nil => exact fun st => rfl
  | cons x xs ih =>
    intro st
    rw [List.foldl_cons, ih, hf]

theorem foldl_scanStep_measure_eq {β : Type} (m : AIState → β)
    (hm : ∀ acc s, m (scanStep acc s).1 = m acc.1) :
    ∀ (l : List Sentence) (acc : AIState × Bool), m (l.foldl scanStep acc).1 = m acc.1 := by
  intro l
  induction l with
  | nil => exact fun acc => rfl
  | cons x xs ih =>
    intro acc
    rw [List.foldl_cons, ih, hm]

theorem mark_mine_klen (st : AIState) (c : Cell) :
    (st.mark_mine c).knowledge.length = st.knowledge.length := by
  unfold AIState.mark_mine
  split
  · rfl
  · exact List.length_map _ _

theorem mark_safe_klen (st : AIState) (c : Cell) :
    (st.mark_safe c).knowledge.length = st.knowledge.length := by
  unfold AIState.mark_safe
  split
  · rfl
  · exact List.length_map _ _

theorem scanStep_klen (acc : AIState × Bool) (s : Sentence) :
    (scanStep acc s).1.knowledge.length = acc.1.knowledge.length := by
  unfold scanStep
  dsimp only
  rw [multiset_foldl_measure_eq AIState.mark_safe (fun st => st.knowledge.length)
      mark_safe_klen _ _,
    multiset_foldl_measure_eq AIState.mark_mine (fun st => st.knowledge.length)
      mark_mine_klen _ _]

theorem scanStep_moves (acc : AIState × Bool) (s : Sentence) :
    (scanStep acc s).1.moves_made = acc.1.moves_made := by
  unfold scanStep
  dsimp only
  rw [multiset_foldl_measure_eq AIState.mark_safe (fun st => st.moves_made)
      AIState.mark_safe_moves _ _,
    multiset_foldl_measure_eq AIState.mark_mine (fun st => st.moves_made)
      AIState.mark_mine_moves _ _]

theorem propagate_klen :
    ∀ (n : ℕ) (st : AIState), (propagate n st).knowledge.length = st.knowledge.length := by
  intro n
  induction n with
  | zero => exact fun st => rfl
  | succ m ih =>
    intro st
    unfold propagate
    rcases hp : runPass st with ⟨st', bflag⟩
    have hrp : (runPass st).1.knowledge.length = st.knowledge.length :=
      foldl_scanStep_measure_eq (fun st => st.knowledge.length) scanStep_klen st.knowledge (st, false)
    rw [hp] at hrp
    cases bflag with
    | true =>
      show (propagate m st').knowledge.length = st.knowledge.length
      rw [ih st']
      exact hrp
    | false => exact hrp

theorem propagate_moves :
    ∀ (n : ℕ) (st : AIState), (propagate n st).moves_made = st.moves_made := by
  intro n
  induction n with
  | zero => exact fun st => rfl
  | succ m ih =>
    intro st
    unfold propagate
    rcases hp : runPass st with ⟨st', bflag⟩
    have hrp : (runPass st).1.moves_made = st.moves_made :=
      foldl_scanStep_measure_eq (fun st => st.moves_made) scanStep_moves st.knowledge (st, false)
    rw [hp] at hrp
    cases bflag with
    | true =>
      show (propagate m st').moves_made = st.moves_made
      rw [ih st']
      exact hrp
    | false => exact hrp

/-!  ## The observed cell is recorded and marked safe -/

theorem afterMark_moves (st : AIState) (c : Cell) :
    (afterMark st c).moves_made = insert c st.moves_made := by
  unfold afterMark
  rw [AIState.mark_safe_moves]

theorem afterMark_safes_mem (st : AIState) (c : Cell) : c ∈ (afterMark st c).safes := by
  unfold afterMark AIState.mark_safe
  split
  · next h => exact h
  · exact Finset.mem_insert_self c _

theorem newSentenceState_moves (st : AIState) (c : Cell) (n : ℤ) :
    (newSentenceState st c n).moves_made = insert c st.moves_made := by
  unfold newSentenceState
  dsimp only
  split
  · exact afterMark_moves st c
  · exact afterMark_moves st c

theorem newSentenceState_safes_mem (st : AIState) (c : Cell) (n : ℤ) :
    c ∈ (newSentenceState st c n).safes := by
  unfold newSentenceState
  dsimp only
  split
  · exact afterMark_safes_mem st c
  · exact afterMark_safes_mem st c

theorem add_knowledge_moves (st : AIState) (c : Cell) (n : ℤ) :
    (add_knowledge st c n).moves_made = insert c st.moves_made := by
  unfold add_knowledge eliminationStep afterPropagation
  dsimp only
  rw [propagate_moves, newSentenceState_moves]

theorem add_knowledge_safes_mem (st : AIState) (c : Cell) (n : ℤ) :
    c ∈ (add_knowledge st c n).safes := by
  unfold add_knowledge afterPropagation
  have h1 := newSentenceState_safes_mem st c n
  have h2 :=
    (grows_propagate (sumCells (newSentenceState st c n) + 1) (newSentenceState st c n)).2.1
  exact (grows_eliminationStep _).2.1 (h2 h1)

/-- The cells already played are always known safe. -/
def MovesSafe (st : AIState) : Prop := st.moves_made ⊆ st.safes

theorem movesSafe_stepOp (st : AIState) (op : Op) (h : MovesSafe st) :
    MovesSafe (stepOp st op) := by
  cases op with
  | observe c n =>
    show MovesSafe (add_knowledge st c n)
    intro x hx
    rw [add_knowledge_moves] at hx
    rcases Finset.mem_insert.mp hx with rfl | hm
    · exact add_knowledge_safes_mem st x n
    · exact (grows_add_knowledge st c n).2.1 (h hm)
  | mark_mine c =>
    show MovesSafe (st.mark_mine c)
    intro x hx
    rw [AIState.mark_mine_moves] at hx
    rw [AIState.mark_mine_safes]
    exact h hx
  | mark_safe c =>
    show MovesSafe (st.mark_safe c)
    intro x hx
    rw [AIState.mark_safe_moves] at hx
    exact (grows_mark_safe st c).2.1 (h hx)

theorem movesSafe_runOps (h w : ℕ) (ops : List Op) : MovesSafe (runOps h w ops) := by
  unfold runOps runFrom
  refine foldl_invariant stepOp MovesSafe movesSafe_stepOp ops (initialAI h w) ?_
  intro x hx
  exact absurd hx (Finset.not_mem_empty x)

/-!  ## Claim theorems -/

/-- C6: the propagation loop inside every `add_knowledge` call
terminates.  On any state whose stored sentences avoid `mines` and
`safes`, at most `sumCells + 1` scans reach a scan that reports no new
marks (so the `while changes_made` loop exits); in particular the loop
inside `add_knowledge` reaches its fixpoint on every state reachable
from a fresh `MinesweeperAI` by any sequence of operations. -/
theorem c6_propagation_loop_terminates :
    (∀ st : AIState, DisjointKnowledge st →
        (runPass (propagate (sumCells st + 1) st)).2 = false) ∧
    (∀ (h w : ℕ) (ops : List Op) (c : Cell) (n : ℤ),
        (runPass (afterPropagation (runOps h w ops) c n)).2 = false) := by
  constructor
  · exact propagation_terminates
  · intro h w ops c n
    unfold afterPropagation
    exact propagation_terminates _
      (disjoint_newSentenceState _ c n (disjoint_runOps h w ops))

/-- C8: immediately after the propagation fixpoint within an
`add_knowledge` call on any reachable state, every stored sentence's
cell set is disjoint from both `safes` and `mines`. -/
theorem c8_knowledge_disjoint_after_fixpoint (h w : ℕ) (ops : List Op)
    (c : Cell) (n : ℤ) :
    ∀ s ∈ (afterPropagation (runOps h w ops) c n).knowledge,
      s.cells ∩ (afterPropagation (runOps h w ops) c n).safes = ∅ ∧
      s.cells ∩ (afterPropagation (runOps h w ops) c n).mines = ∅ := by
  intro s hs
  have hd := disjoint_propagate (sumCells (newSentenceState (runOps h w ops) c n) + 1)
    (newSentenceState (runOps h w ops) c n)
    (disjoint_newSentenceState _ c n (disjoint_runOps h w ops)) s hs
  exact ⟨hd.2, hd.1⟩

/-- Witness for C8 at a concrete input: a fresh 2×2 board, observing
`(0,0)` with count 1; the single stored sentence avoids `safes` and
`mines` after the fixpoint. -/
theorem c8_witness :
    (Sentence.mk {((0:ℤ),(1:ℤ)), ((1:ℤ),(0:ℤ)), ((1:ℤ),(1:ℤ))} 1).cells
        ∩ (afterPropagation (runOps 2 2 []) ((0:ℤ),(0:ℤ)) 1).safes = ∅ ∧
    (Sentence.mk {((0:ℤ),(1:ℤ)), ((1:ℤ),(0:ℤ)), ((1:ℤ),(1:ℤ))} 1).cells
        ∩ (afterPropagation (runOps 2 2 []) ((0:ℤ),(0:ℤ)) 1).mines = ∅ :=
  c8_knowledge_disjoint_after_fixpoint 2 2 [] ((0:ℤ),(0:ℤ)) 1
    (Sentence.mk {((0:ℤ),(1:ℤ)), ((1:ℤ),(0:ℤ)), ((1:ℤ),(1:ℤ))} 1) (by decide)

/-- C9: across every sequence of operations from any state, `mines`,
`safes` and `moves_made` only grow: no operation removes a cell from
them, and their cardinalities never decrease. -/
theorem c9_monotonicity (st : AIState) (ops : List Op) :
    st.mines ⊆ (runFrom st ops).mines ∧
    st.safes ⊆ (runFrom st ops).safes ∧
    st.moves_made ⊆ (runFrom st ops).moves_made ∧
    st.mines.card ≤ (runFrom st ops).mines.card ∧
    st.safes.card ≤ (runFrom st ops).safes.card ∧
    st.moves_made.card ≤ (runFrom st ops).moves_made.card := by
  have hg := grows_runFrom st ops
  exact ⟨hg.1, hg.2.1, hg.2.2, Finset.card_le_card hg.1,
    Finset.card_le_card hg.2.1, Finset.card_le_card hg.2.2⟩

/-- C10: after any sequence of operations from a fresh `MinesweeperAI`,
every observed cell is also recorded as safe: `moves_made ⊆ safes`. -/
theorem c10_moves_made_subset_safes (h w : ℕ) (ops : List Op) :
    (runOps h w ops).moves_made ⊆ (runOps h w ops).safes :=
  movesSafe_runOps h w ops

/-- C1 (amended): `safes` and `mines` need not stay disjoint — marking a
cell as a mine does not remove it from `safes` and vice versa.  Starting
from a disjoint state, `mark_mine c` preserves disjointness exactly when
`c` is already a known mine or not currently in `safes`, and
symmetrically for `mark_safe`. -/
theorem c1_disjointness_characterisation (st : AIState) (c : Cell)
    (h : st.safes ∩ st.mines = ∅) :
    (((st.mark_mine c).safes ∩ (st.mark_mine c).mines = ∅)
      ↔ (c ∈ st.mines ∨ c ∉ st.safes)) ∧
    (((st.mark_safe c).safes ∩ (st.mark_safe c).mines = ∅)
      ↔ (c ∈ st.safes ∨ c ∉ st.mines)) := by
  constructor
  · by_cases hm : c ∈ st.mines
    · rw [state_mark_mine_mem hm]
      exact iff_of_true h (Or.inl hm)
    · rw [state_mark_mine_not_mem hm]
      dsimp only
      constructor
      · intro he
        right
        intro hs
        have hmem : c ∈ st.safes ∩ insert c st.mines :=
          Finset.mem_inter.mpr ⟨hs, Finset.mem_insert_self c st.mines⟩
        rw [he] at hmem
        exact Finset.not_mem_empty c hmem
      · intro hor
        rcases hor with hm2 | hs
        · exact absurd hm2 hm
        · exact inter_insert_empty h hs
  · by_cases hs : c ∈ st.safes
    · rw [state_mark_safe_mem hs]
      exact iff_of_true h (Or.inl hs)
    · rw [state_mark_safe_not_mem hs]
      dsimp only
      constructor
      · intro he
        right
        intro hm
        have hmem : c ∈ insert c st.safes ∩ st.mines :=
          Finset.mem_inter.mpr ⟨Finset.mem_insert_self c st.safes, hm⟩
        rw [he] at hmem
        exact Finset.not_mem_empty c hmem
      · intro hor
        rcases hor with hs2 | hm
        · exact absurd hs2 hs
        · rw [Finset.insert_inter_of_not_mem hm]
          exact h

/-- Witness for C1 at a concrete input: marking a mine on a fresh board
preserves disjointness. -/
theorem c1_witness :
    ((initialAI 2 2).mark_mine ((0:ℤ),(0:ℤ))).safes
      ∩ ((initialAI 2 2).mark_mine ((0:ℤ),(0:ℤ))).mines = ∅ :=
  ((c1_disjointness_characterisation (initialAI 2 2) ((0:ℤ),(0:ℤ)) (by decide)).1).mpr
    (by decide)

/-- Counterexample to C1 as stated: `mark_safe (0,0)` then
`mark_mine (0,0)` from a fresh `MinesweeperAI` leaves `(0,0)` in both
`safes` and `mines`, so the sets are not disjoint after every call. -/
theorem c1_counterexample :
    (runOps 2 2 [Op.mark_safe ((0:ℤ),(0:ℤ)), Op.mark_mine ((0:ℤ),(0:ℤ))]).safes
      ∩ (runOps 2 2 [Op.mark_safe ((0:ℤ),(0:ℤ)), Op.mark_mine ((0:ℤ),(0:ℤ))]).mines
      ≠ ∅ := by decide

/-- C2: `known_mines` returns a copy of `cells` when `|cells| = count`
with `count > 0` and the empty set otherwise; `known_safes` returns a
copy of `cells` when `count = 0` and the empty set otherwise. -/
theorem c2_known_mines_safes_spec (s : Sentence) :
    (((s.cells.card : ℤ) = s.count ∧ 0 < s.count) → s.known_mines = s.cells) ∧
    (¬((s.cells.card : ℤ) = s.count ∧ 0 < s.count) → s.known_mines = ∅) ∧
    (s.count = 0 → s.known_safes = s.cells) ∧
    (s.count ≠ 0 → s.known_safes = ∅) := by
  refine ⟨?_, ?_, ?_, ?_⟩ <;> intro h
  · unfold Sentence.known_mines
    rw [if_pos h]
  · unfold Sentence.known_mines
    rw [if_neg h]
  · unfold Sentence.known_safes
    rw [if_pos h]
  · unfold Sentence.known_safes
    rw [if_neg h]

/-- C4 (amended): every constraint is non-empty at the moment it is
appended — the observation sentence and the elimination inferences are
both guarded by a non-emptiness check — but no operation ever removes a
stored constraint: propagation keeps the knowledge list's length, and
elimination only appends.  A stored constraint whose cells shrink to
empty during propagation is therefore retained, not dropped. -/
theorem c4_empty_constraints_retained :
    (∀ (st : AIState) (c : Cell) (n : ℤ),
        ∀ s ∈ (newSentenceState st c n).knowledge,
          s ∈ (afterMark st c).knowledge ∨ s.cells ≠ ∅) ∧
    (∀ st : AIState, ∀ s ∈ (eliminationStep st).knowledge,
        s ∈ st.knowledge ∨ s.cells ≠ ∅) ∧
    (∀ (f : ℕ) (st : AIState),
        (propagate f st).knowledge.length = st.knowledge.length) ∧
    (∀ st : AIState, st.knowledge.length ≤ (eliminationStep st).knowledge.length) := by
  refine ⟨?_, ?_, propagate_klen, ?_⟩
  · intro st c n s hs
    unfold newSentenceState at hs
    dsimp only at hs
    split at hs
    · next hguard =>
      rcases List.mem_append.mp hs with hl | hr
      · exact Or.inl hl
      · rw [List.mem_singleton] at hr
        subst hr
        exact Or.inr (Finset.nonempty_iff_ne_empty.mp (Finset.card_pos.mp hguard))
    · exact Or.inl hs
  · intro st s hs
    rcases List.mem_append.mp hs with hl | hr
    · exact Or.inl hl
    · exact Or.inr (Finset.nonempty_iff_ne_empty.mp
        (Finset.card_pos.mp (subsetInferences_spec hr).2.1))
  · intro st
    rw [show (eliminationStep st).knowledge
      = st.knowledge ++ subsetInferences st.knowledge from rfl, List.length_append]
    exact Nat.le_add_right _ _

/-- Counterexample to C4 as stated: observing `(0,0)` with count 0 on a
fresh 2×2 board leaves the sentence over its three neighbours stored
even after propagation empties it — the knowledge base holds a
constraint with an empty cell set after `add_knowledge` returns. -/
theorem c4_counterexample :
    (Sentence.mk ∅ 0) ∈ (runOps 2 2 [Op.observe ((0:ℤ),(0:ℤ)) 0]).knowledge ∧
    (Sentence.mk ∅ 0).cells = ∅ := by decide

/-- C5 (amended): one subset-elimination pass never appends an inference
structurally equal to a constraint already stored when the pass runs;
the knowledge base can nevertheless hold structural duplicates, because
the observation sentence of `add_knowledge` is appended without any
duplicate check. -/
theorem c5_inferences_not_duplicating_stored (kb : List Sentence) (s : Sentence)
    (h : s ∈ subsetInferences kb) : s ∉ kb :=
  (subsetInferences_spec h).2.2

/-- Witness for C5 at a concrete input: the inference `{(0,2)} = 1`
derived from `{(0,1)} = 1` and `{(0,1),(0,2)} = 2` is not among the
stored constraints. -/
theorem c5_witness :
    (Sentence.mk {((0:ℤ),(2:ℤ))} 1)
      ∉ [Sentence.mk {((0:ℤ),(1:ℤ))} 1,
         Sentence.mk {((0:ℤ),(1:ℤ)),((0:ℤ),(2:ℤ))} 2] :=
  c5_inferences_not_duplicating_stored _ _ (by decide)

/-- Counterexample to C5 as stated: observing the same cell twice with
the same count stores two structurally equal constraints. -/
theorem c5_counterexample :
    ¬ (runOps 2 2 [Op.observe ((0:ℤ),(0:ℤ)) 1,
        Op.observe ((0:ℤ),(0:ℤ)) 1]).knowledge.Nodup := by decide

/-- Membership in one subset-elimination pass, characterised over
unordered pairs of stored constraints. -/
theorem subsetInferences_mem_iff (kb : List Sentence) (s : Sentence) :
    s ∈ subsetInferences kb ↔
      ∃ s1 s2 : Sentence, ((s1, s2) ∈ ijPairs kb ∨ (s2, s1) ∈ ijPairs kb) ∧
        s1.cells ⊆ s2.cells ∧ s = ⟨s2.cells \ s1.cells, s2.count - s1.count⟩ ∧
        s.cells ≠ ∅ ∧ s ∉ kb := by
  constructor
  · intro h
    unfold subsetInferences at h
    obtain ⟨p, hp, hf⟩ := List.mem_filterMap.mp h
    unfold inferFrom at hf
    dsimp only at hf
    split at hf
    · next h12 =>
      split at hf
      · next hg =>
        obtain rfl := Option.some_injective _ hf
        exact ⟨p.1, p.2, Or.inl hp, h12, rfl,
          Finset.nonempty_iff_ne_empty.mp (Finset.card_pos.mp hg.1), hg.2⟩
      · cases hf
    · split at hf
      · next h21 =>
        split at hf
        · next hg =>
          obtain rfl := Option.some_injective _ hf
          exact ⟨p.2, p.1, Or.inr hp, h21, rfl,
            Finset.nonempty_iff_ne_empty.mp (Finset.card_pos.mp hg.1), hg.2⟩
        · cases hf
      · cases hf
  · rintro ⟨s1, s2, hpair, hsub, rfl, hne, hnotin⟩
    unfold subsetInferences
    apply List.mem_filterMap.mpr
    have hcard : 0 < (s2.cells \ s1.cells).card :=
      Finset.card_pos.mpr (Finset.nonempty_iff_ne_empty.mpr hne)
    rcases hpair with hp | hp
    · refine ⟨(s1, s2), hp, ?_⟩
      unfold inferFrom
      dsimp only
      rw [if_pos hsub, if_pos ⟨hcard, hnotin⟩]
    · refine ⟨(s2, s1), hp, ?_⟩
      unfold inferFrom
      dsimp only
      have h21 : ¬ s2.cells ⊆ s1.cells := by
        intro hss
        apply hne
        dsimp only
        rw [Finset.Subset.antisymm hss hsub, Finset.sdiff_self]
      rw [if_neg h21, if_pos hsub, if_pos ⟨hcard, hnotin⟩]

/-- C3: subset elimination runs once per `add_knowledge` call, appending
to the post-propagation knowledge base exactly the retained derivations;
a derivation arises from every unordered pair of distinct stored
constraints with one cell set contained in the other, as superset minus
subset with the counts subtracted, discarded when empty or structurally
equal to a stored constraint; and from `{(0,1),(0,2),(0,3)} = 1` and
`{(0,1),(0,2),(0,3),(0,4)} = 2` elimination derives `{(0,4)} = 1`. -/
theorem c3_subset_elimination_spec :
    (∀ (st : AIState) (c : Cell) (n : ℤ),
        (add_knowledge st c n).knowledge
          = (afterPropagation st c n).knowledge
            ++ subsetInferences (afterPropagation st c n).knowledge) ∧
    (∀ (kb : List Sentence) (s : Sentence),
        s ∈ subsetInferences kb ↔
          ∃ s1 s2 : Sentence, ((s1, s2) ∈ ijPairs kb ∨ (s2, s1) ∈ ijPairs kb) ∧
            s1.cells ⊆ s2.cells ∧ s = ⟨s2.cells \ s1.cells, s2.count - s1.count⟩ ∧
            s.cells ≠ ∅ ∧ s ∉ kb) ∧
    subsetInferences [⟨{((0:ℤ),(1:ℤ)),((0:ℤ),(2:ℤ)),((0:ℤ),(3:ℤ))}, 1⟩,
        ⟨{((0:ℤ),(1:ℤ)),((0:ℤ),(2:ℤ)),((0:ℤ),(3:ℤ)),((0:ℤ),(4:ℤ))}, 2⟩]
      = [⟨{((0:ℤ),(4:ℤ))}, 1⟩] :=
  ⟨fun _ _ _ => rfl, subsetInferences_mem_iff, by decide⟩

/-- An in-bounds cell outside `moves_made` and `mines` is a candidate of
`make_random_move`. -/
theorem mem_possibleMoves_of_unresolved (st : AIState) (i j : ℕ)
    (hi : i < st.height) (hj : j < st.width)
    (h1 : ((i:ℤ), (j:ℤ)) ∉ st.moves_made) (h2 : ((i:ℤ), (j:ℤ)) ∉ st.mines) :
    ((i:ℤ), (j:ℤ)) ∈ possibleMoves st := by
  unfold possibleMoves
  exact List.mem_flatMap.mpr ⟨i, List.mem_range.mpr hi,
    List.mem_filterMap.mpr ⟨j, List.mem_range.mpr hj, by rw [if_pos ⟨h1, h2⟩]⟩⟩

/-- C7: `make_random_move` returns `none` when
`|moves_made| + |mines| ≥ height * width`; when that check passes, a
cell outside `moves_made ∪ mines` always exists on the board — the
candidate list is provably non-empty, so the function returns a chosen
cell and its silent `none` fallback for an empty candidate list is
unreachable. -/
theorem c7_random_move_spec (pick : List Cell → Cell) (st : AIState) :
    (st.height * st.width ≤ st.moves_made.card + st.mines.card →
        make_random_move pick st = none) ∧
    (st.moves_made.card + st.mines.card < st.height * st.width →
        possibleMoves st ≠ [] ∧
        make_random_move pick st = some (pick (possibleMoves st))) := by
  constructor
  · intro h
    unfold make_random_move
    rw [if_pos h]
  · intro h
    have hinj : Function.Injective (fun p : ℕ × ℕ => (((p.1:ℤ), (p.2:ℤ)) : Cell)) := by
      intro p q hpq
      rw [Prod.ext_iff] at hpq ⊢
      exact ⟨Nat.cast_injective hpq.1, Nat.cast_injective hpq.2⟩
    have hne : possibleMoves st ≠ [] := by
      intro hempty
      have hsub : (Finset.range st.height ×ˢ Finset.range st.width).image
          (fun p : ℕ × ℕ => (((p.1:ℤ), (p.2:ℤ)) : Cell)) ⊆ st.moves_made ∪ st.mines := by
        intro x hx
        obtain ⟨p, hp, rfl⟩ := Finset.mem_image.mp hx
        rw [Finset.mem_product, Finset.mem_range, Finset.mem_range] at hp
        by_cases h1 : (((p.1:ℤ), (p.2:ℤ)) : Cell) ∈ st.moves_made
        · exact Finset.mem_union_left _ h1
        by_cases h2 : (((p.1:ℤ), (p.2:ℤ)) : Cell) ∈ st.mines
        · exact Finset.mem_union_right _ h2
        · exfalso
          have hmem := mem_possibleMoves_of_unresolved st p.1 p.2 hp.1 hp.2 h1 h2
          rw [hempty] at hmem
          cases hmem
      have hcard : st.height * st.width ≤ (st.moves_made ∪ st.mines).card := by
        have himg : ((Finset.range st.height ×ˢ Finset.range st.width).image
            (fun p : ℕ × ℕ => (((p.1:ℤ), (p.2:ℤ)) : Cell))).card
            = st.height * st.width := by
          rw [Finset.card_image_of_injective _ hinj, Finset.card_product,
            Finset.card_range, Finset.card_range]
        rw [← himg]
        exact Finset.card_le_card hsub
      exact lt_irrefl _
        (lt_of_le_of_lt (le_trans hcard (Finset.card_union_le _ _)) h)
    refine ⟨hne, ?_⟩
    obtain ⟨a, t, hq⟩ := List.exists_cons_of_ne_nil hne
    unfold make_random_move
    rw [if_neg (Nat.not_le.mpr h), hq]
    rfl
